import Mathlib

/-!
Verification development for the passphrase generation engine
(`passphrase/passphrase.py` and its collaborators).

The Python code is shallowly embedded: the `Passphrase` object becomes a
structure, mutating methods become state-passing functions returning the new
state together with an `Except` value (a raised exception leaves the state as
it was, matching Python semantics where the mutation happens after
validation), and the CSPRNG primitives `randbetween` / `randchoice` are an
oracle (`RandSrc`) quantified over all lawful draw sequences.

Modules of the repository that are not part of the provided snapshot
(`settings.py`, `secrets.py`, `calc.py`, `wordlist.json`) are modelled from
the specification; each such definition carries a doc comment saying so.
-/

/-- Modelled from the spec: `settings.py` is absent from the snapshot.
`MIN_NUM` is the lower bound of the default numeric range; the CLI help text
shows six-digit generated numbers (e.g. 184022), giving the range
[100000, 999999]. -/
def MIN_NUM : Int := 100000

/-- Modelled from the spec: upper bound of the default numeric range, see
`MIN_NUM`. -/
def MAX_NUM : Int := 999999

/-- A token of a generated result: `last_result` holds strings (words, UUID
segments, single password characters) and integers. Strings are embedded as
`List Char`. -/
inductive Token where
  | word (cs : List Char)
  | num (z : Int)
deriving DecidableEq

/-- Exceptions raised by the embedded code (messages elided). -/
inductive PyErr where
  | typeError
  | valueError
deriving DecidableEq

/-- The CSPRNG oracle: `between k a b` is the value of the `k`-th
`randbetween(a, b)` call, `choice k n` the index drawn by the `k`-th
`randchoice` call on a sequence of length `n`. -/
structure RandSrc where
  between : Nat → Int → Int → Int
  choice : Nat → Nat → Nat

/-- Lawfulness of the oracle: `randbetween` returns a value inside the
inclusive range, `randchoice` a valid index. -/
def RandSrc.Lawful (r : RandSrc) : Prop :=
  (∀ k a b, a ≤ b → a ≤ r.between k a b ∧ r.between k a b ≤ b) ∧
  (∀ k n, 0 < n → r.choice k n < n)

/-- A fixed lawful oracle used to instantiate universally quantified
theorems: `randbetween` returns the lower bound, `randchoice` index 0. -/
def detSrc : RandSrc where
  between := fun _ a _ => a
  choice := fun _ _ => 0

theorem detSrc_lawful : detSrc.Lawful :=
  ⟨fun _ _ _ h => ⟨le_refl _, h⟩, fun _ _ h => h⟩

/-- The configuration/result entity of `passphrase.py` (class `Passphrase`).
Fields that are `None` until set are `Option`s; the numeric bounds are
integers initialised from the settings constants. -/
structure Passphrase where
  wordlist : Option (List (List Char))
  external_wordlist : Bool
  wordlist_entropy_bits : Option ℝ
  amount_w : Option Nat
  amount_n : Option Nat
  randnum_min : Int
  randnum_max : Int
  passwordlen : Option Nat
  entropy_bits_req : Option ℝ
  password_use_lowercase : Bool
  password_use_uppercase : Bool
  password_use_digits : Bool
  password_use_punctuation : Bool
  last_result : Option (List Token)

/-- Class-level defaults of `Passphrase` (state of a freshly constructed
object with no input file). -/
def Passphrase.init : Passphrase where
  wordlist := none
  external_wordlist := false
  wordlist_entropy_bits := none
  amount_w := none
  amount_n := none
  randnum_min := MIN_NUM
  randnum_max := MAX_NUM
  passwordlen := none
  entropy_bits_req := none
  password_use_lowercase := true
  password_use_uppercase := true
  password_use_digits := true
  password_use_punctuation := true
  last_result := none

/-- Python truthiness test `not self.wordlist`: true when the wordlist is
unset or empty. -/
def Passphrase.wordlistEmpty (s : Passphrase) : Bool :=
  match s.wordlist with
  | none => true
  | some l => l.isEmpty

/-- Setter `randnum_min`: accepts any non-negative int. -/
def Passphrase.set_randnum_min (s : Passphrase) (v : Int) : Except PyErr Passphrase :=
  if v < 0 then .error .valueError else .ok { s with randnum_min := v }

/-- Setter `randnum_max`: accepts any non-negative int. -/
def Passphrase.set_randnum_max (s : Passphrase) (v : Int) : Except PyErr Passphrase :=
  if v < 0 then .error .valueError else .ok { s with randnum_max := v }

/-- Setter `amount_w`: accepts any non-negative int. -/
def Passphrase.set_amount_w (s : Passphrase) (v : Int) : Except PyErr Passphrase :=
  if v < 0 then .error .valueError else .ok { s with amount_w := some v.toNat }

/-- Setter `amount_n`: accepts any non-negative int. -/
def Passphrase.set_amount_n (s : Passphrase) (v : Int) : Except PyErr Passphrase :=
  if v < 0 then .error .valueError else .ok { s with amount_n := some v.toNat }

/-- Setter `passwordlen`: accepts any non-negative int. -/
def Passphrase.set_passwordlen (s : Passphrase) (v : Int) : Except PyErr Passphrase :=
  if v < 0 then .error .valueError else .ok { s with passwordlen := some v.toNat }

/-- Setter `wordlist`: stores a copy and marks the wordlist external. -/
def Passphrase.set_wordlist (s : Passphrase) (ws : List (List Char)) : Except PyErr Passphrase :=
  .ok { s with wordlist := some ws, external_wordlist := true }

/-- Configurations reachable from the defaults through the public setters. -/
inductive Passphrase.Reachable : Passphrase → Prop where
  | init : Passphrase.Reachable Passphrase.init
  | rmin {s t : Passphrase} {v : Int} :
      Passphrase.Reachable s → s.set_randnum_min v = .ok t → Passphrase.Reachable t
  | rmax {s t : Passphrase} {v : Int} :
      Passphrase.Reachable s → s.set_randnum_max v = .ok t → Passphrase.Reachable t
  | aw {s t : Passphrase} {v : Int} :
      Passphrase.Reachable s → s.set_amount_w v = .ok t → Passphrase.Reachable t
  | an {s t : Passphrase} {v : Int} :
      Passphrase.Reachable s → s.set_amount_n v = .ok t → Passphrase.Reachable t
  | plen {s t : Passphrase} {v : Int} :
      Passphrase.Reachable s → s.set_passwordlen v = .ok t → Passphrase.Reachable t
  | wl {s t : Passphrase} {ws : List (List Char)} :
      Passphrase.Reachable s → s.set_wordlist ws = .ok t → Passphrase.Reachable t

/-- `Passphrase.generate` of the snapshot: validates, then draws `amount_w`
words by `randchoice(self.wordlist)` followed by `amount_n` numbers by
`randbetween(MIN_NUM, MAX_NUM)` (note: the module constants, not the
configured `randnum_min` / `randnum_max`), stores and returns the list. -/
def Passphrase.generate (s : Passphrase) (r : RandSrc) :
    Passphrase × Except PyErr (List Token) :=
  if s.amount_n.isNone || s.amount_w.isNone || s.wordlistEmpty then
    (s, .error .valueError)
  else
    let wl := s.wordlist.getD []
    let words := (List.range (s.amount_w.getD 0)).map
      (fun k => Token.word (wl.getD (r.choice k wl.length) []))
    let nums := (List.range (s.amount_n.getD 0)).map
      (fun k => Token.num (r.between k MIN_NUM MAX_NUM))
    let passphrase := words ++ nums
    ({ s with last_result := some passphrase }, .ok passphrase)

/-- Python `string.ascii_lowercase`. -/
def ascii_lowercase : List Char := (List.range 26).map (fun n => Char.ofNat (97 + n))

/-- Python `string.ascii_uppercase`. -/
def ascii_uppercase : List Char := (List.range 26).map (fun n => Char.ofNat (65 + n))

/-- Python `string.digits`. -/
def string_digits : List Char := (List.range 10).map (fun n => Char.ofNat (48 + n))

/-- Python `string.punctuation`: the 32 ASCII printable characters that are
neither alphanumeric nor the space, i.e. codes 33-47, 58-64, 91-96, 123-126. -/
def string_punctuation : List Char :=
  ((List.range 128).filter (fun n =>
    (33 ≤ n && n ≤ 47) || (58 ≤ n && n ≤ 64) ||
    (91 ≤ n && n ≤ 96) || (123 ≤ n && n ≤ 126))).map Char.ofNat

/-- `Passphrase._get_password_characters`: concatenates the enabled character
classes in source order (lowercase, uppercase, digits, punctuation). -/
def Passphrase.get_password_characters (s : Passphrase) : List Char :=
  (if s.password_use_lowercase then ascii_lowercase else []) ++
  (if s.password_use_uppercase then ascii_uppercase else []) ++
  (if s.password_use_digits then string_digits else []) ++
  (if s.password_use_punctuation then string_punctuation else [])

/-- `Passphrase.generate_password`: validates, then draws `passwordlen`
single characters by `randchoice` over the active character set. -/
def Passphrase.generate_password (s : Passphrase) (r : RandSrc) :
    Passphrase × Except PyErr (List Token) :=
  let characters := s.get_password_characters
  if s.passwordlen.isNone || characters.isEmpty then
    (s, .error .valueError)
  else
    let password := (List.range (s.passwordlen.getD 0)).map
      (fun k => Token.word [characters.getD (r.choice k characters.length) ' '])
    ({ s with last_result := some password }, .ok password)

/-- The lowercase hex digit printed by Python `fo.format` with `x`, as used on
the result of `randbetween(8, 11)`. -/
def hexDigitChar (n : Nat) : Char :=
  if n < 10 then Char.ofNat (48 + n) else Char.ofNat (87 + n)

/-- `Passphrase.generate_uuid4`: the 30 hex characters returned by
`randhex(30)` are the oracle argument `hexstr` (`randhex` is not in the
snapshot; modelled from the spec as 30 lowercase hex characters), and `rb` is
the draw of `randbetween(8, 11)`.  The method slices `hexstr` into the
canonical 8-4-4-4-12 grouping, forcing the version nibble to `4` and the
variant nibble to `rb`. -/
def Passphrase.generate_uuid4 (s : Passphrase) (hexstr : List Char) (rb : Nat) :
    Passphrase × List Token :=
  let uuid4 : List Token :=
    [ .word (hexstr.take 8),
      .word ((hexstr.drop 8).take 4),
      .word ('4' :: (hexstr.drop 12).take 3),
      .word (hexDigitChar rb :: (hexstr.drop 15).take 3),
      .word (hexstr.drop 18) ]
  ({ s with last_result := some uuid4 }, uuid4)

/-- Lowercase hexadecimal digit test. -/
def isHexDigit (c : Char) : Bool :=
  (('0' ≤ c) && (c ≤ '9')) || (('a' ≤ c) && (c ≤ 'f'))

/-- Splits a character list at dashes (used to parse a UUID string back into
its segments). -/
def splitDash : List Char → List (List Char)
  | [] => [[]]
  | c :: cs =>
    if c = '-' then [] :: splitDash cs
    else
      match splitDash cs with
      | [] => [[c]]
      | s :: ss => (c :: s) :: ss

/-- Joins segments with dashes (the presentation layer applied to a UUID
result, `str(passphrase)` with separator `-`). -/
def joinDash : List (List Char) → List Char
  | [] => []
  | [s] => s
  | s :: ss => s ++ '-' :: joinDash ss

/-- A textual version-4 RFC-4122 UUID: five dash-separated segments of
lengths 8, 4, 4, 4 and 12, all hex, whose 13th hex digit (head of segment 3)
is `4` and whose 17th hex digit (head of segment 4) is one of `8,9,a,b`. -/
def validUUID4Segments (ts : List (List Char)) : Bool :=
  match ts with
  | [t1, t2, t3, t4, t5] =>
    (t1.length == 8) && (t2.length == 4) && (t3.length == 4) &&
    (t4.length == 4) && (t5.length == 12) &&
    (t1 ++ t2 ++ t3 ++ t4 ++ t5).all isHexDigit &&
    (t3.getD 0 ' ' == '4') &&
    ((t4.getD 0 ' ' == '8') || (t4.getD 0 ' ' == '9') ||
     (t4.getD 0 ' ' == 'a') || (t4.getD 0 ' ' == 'b'))
  | _ => false

/-- A character list parses as a valid version-4 UUID string. -/
def isValidUUID4 (cs : List Char) : Bool :=
  validUUID4Segments (splitDash cs)

/- The nested heterogeneous input of `make_chars_uppercase`: a leaf is a
character/string or a non-string immutable value (embedded as an integer, as
in the test data), a container is an ordered sequence (list/tuple) or an
unordered set; containers nest arbitrarily (spec section 9 suggests exactly
this closed tagged-variant tree). -/
mutual
/-- A node of the nested case-tree. -/
inductive CaseData where
  | str (s : List Char)
  | num (z : Int)
  | ordered (xs : CaseList)
  | unordered (xs : CaseList)
deriving DecidableEq
inductive CaseList where
  | nil
  | cons (x : CaseData) (xs : CaseList)
deriving DecidableEq
end

/- All characters of the structure, in traversal order (input order for
ordered containers, the fixed enumeration order for unordered ones). -/
mutual
/-- All leaf characters of a tree, in traversal order. -/
def charsOf : CaseData → List Char
  | .str s => s
  | .num _ => []
  | .ordered xs => charsOfList xs
  | .unordered xs => charsOfList xs
def charsOfList : CaseList → List Char
  | .nil => []
  | .cons x xs => charsOf x ++ charsOfList xs
end

/-- Number of alphabetic characters in a character list. -/
def alphaCnt (cs : List Char) : Nat := (cs.filter Char.isAlpha).length

/-- Number of lowercase characters in a character list. -/
def lowerCnt (cs : List Char) : Nat := (cs.filter Char.isLower).length

/-- Number of uppercase characters in a character list
(`Aux.uppercase_count` of the test suite, restricted to characters). -/
def upperCnt (cs : List Char) : Nat := (cs.filter Char.isUpper).length

/-- Total count of alphabetic leaf characters of the structure. -/
def totalAlphabetic (d : CaseData) : Nat := alphaCnt (charsOf d)

/-- Total count of lowercase leaf characters of the structure. -/
def lowerCount (d : CaseData) : Nat := lowerCnt (charsOf d)

/-- Total count of uppercase leaf characters of the structure. -/
def upperCount (d : CaseData) : Nat := upperCnt (charsOf d)

/-- Core selection pass on a character list: the alphabetic characters are
numbered consecutively starting at `i`; a selected one is uppercased, all
other characters are copied unchanged. Returns the transformed list and the
next alphabetic index. -/
def upperChars (sel : Nat → Bool) : Nat → List Char → List Char × Nat
  | i, [] => ([], i)
  | i, c :: cs =>
    if c.isAlpha then
      let rest := upperChars sel (i + 1) cs
      ((if sel i then c.toUpper else c) :: rest.1, rest.2)
    else
      let rest := upperChars sel i cs
      (c :: rest.1, rest.2)

/- Structure-preserving selection pass over the whole tree, threading the
alphabetic index through the leaves in traversal order. -/
mutual
/-- Selection pass over one node. -/
def applySel (sel : Nat → Bool) : Nat → CaseData → CaseData × Nat
  | i, .str s =>
    let r := upperChars sel i s
    (.str r.1, r.2)
  | i, .num z => (.num z, i)
  | i, .ordered xs =>
    let r := applySelList sel i xs
    (.ordered r.1, r.2)
  | i, .unordered xs =>
    let r := applySelList sel i xs
    (.unordered r.1, r.2)
def applySelList (sel : Nat → Bool) : Nat → CaseList → CaseList × Nat
  | i, .nil => (.nil, i)
  | i, .cons x xs =>
    let rx := applySel sel i x
    let rxs := applySelList sel rx.2 xs
    (.cons rx.1 rxs.1, rxs.2)
end

/- The branch of `make_chars_uppercase` taken when the requested count
covers every alphabetic character: uppercase everything, no randomness. -/
mutual
/-- Uppercase every character of a node. -/
def makeAllUppercase : CaseData → CaseData
  | .str s => .str (s.map Char.toUpper)
  | .num z => .num z
  | .ordered xs => .ordered (makeAllUppercaseList xs)
  | .unordered xs => .unordered (makeAllUppercaseList xs)
def makeAllUppercaseList : CaseList → CaseList
  | .nil => .nil
  | .cons x xs => .cons (makeAllUppercase x) (makeAllUppercaseList xs)
end

/-- Number of selected indices in the window `[i, i + m)`. -/
def selCnt (sel : Nat → Bool) : Nat → Nat → Nat
  | _, 0 => 0
  | i, m + 1 => (if sel i then 1 else 0) + selCnt sel (i + 1) m

/-- A lawful random selection for `make_chars_uppercase(data, count)`: only
lowercase alphabetic leaf positions are selected, and the number of selected
positions is `min count (lowerCount data)` (drawn without replacement, so
the count is exact). -/
def lawfulSelB (d : CaseData) (count : Nat) (sel : Nat → Bool) : Bool :=
  ((List.range (totalAlphabetic d)).all fun j =>
    !(sel j) || (((charsOf d).filter Char.isAlpha).getD j 'a').isLower) &&
  (selCnt sel 0 (totalAlphabetic d) == min count (lowerCount d))

/-- Modelled from the spec: `make_chars_uppercase` lives in the absent
`calc.py`. Per spec section 4.3: if `count >= total_alphabetic` every
alphabetic character becomes uppercase with no randomness; otherwise a
random set of distinct leaf positions (the `sel` oracle, constrained by
`lawfulSelB`) is uppercased and every other leaf is copied unchanged. The
selection is drawn among the lowercase positions: the spec states that the
resulting uppercase count does not depend on the draw, and the test suite
checks `uppercase_count(result) = count + uppercase_count(input)`, both of
which force already-uppercase positions to never be drawn. -/
def make_chars_uppercase (d : CaseData) (count : Nat) (sel : Nat → Bool) : CaseData :=
  if totalAlphabetic d ≤ count then makeAllUppercase d
  else (applySel sel 0 d).1

/- Same container kinds and shape at every nesting level: strings stay
strings (of the same length), ordered sequences stay ordered sequences with
pointwise-same-shaped elements, unordered sets stay unordered sets, and
non-character leaves are unchanged. -/
mutual
/-- Shape comparison of two nodes. -/
def sameShape : CaseData → CaseData → Bool
  | .str s, .str t => s.length == t.length
  | .num a, .num b => a == b
  | .ordered xs, .ordered ys => sameShapeList xs ys
  | .unordered xs, .unordered ys => sameShapeList xs ys
  | _, _ => false
def sameShapeList : CaseList → CaseList → Bool
  | .nil, .nil => true
  | .cons x xs, .cons y ys => sameShape x y && sameShapeList xs ys
  | _, _ => false
end

/-- The positions effectively uppercased by `make_chars_uppercase`: every
alphabetic position in the all-uppercase branch, the drawn set otherwise. -/
def effSel (d : CaseData) (count : Nat) (sel : Nat → Bool) : Nat → Bool :=
  if totalAlphabetic d ≤ count then fun _ => true else sel

/-- Converts a plain list of nodes into a `CaseList`. -/
def CaseList.ofList : List CaseData → CaseList
  | [] => .nil
  | x :: xs => .cons x (CaseList.ofList xs)

/-- The drawn words of a passphrase, packaged as the ordered sequence handed
to `make_chars_uppercase`. -/
def wordsToCase (ws : List (List Char)) : CaseData :=
  .ordered (CaseList.ofList (ws.map CaseData.str))

/-- The string leaves of a list of nodes, in order. -/
def strsOfList : CaseList → List (List Char)
  | .nil => []
  | .cons (.str s) xs => s :: strsOfList xs
  | .cons _ xs => strsOfList xs

/-- The string leaves of an ordered top-level sequence. -/
def strsOf : CaseData → List (List Char)
  | .ordered xs => strsOfList xs
  | _ => []

/-- Modelled from the spec: the snapshot's `generate` omits the `case_bias`
parameter that its own test suite and CLI caller use (the spec flags this as
version skew and records the tested contract, spec section 4.4). Draws
`amount_w` words and `amount_n` numbers (here over the configured range, as
the spec states); if `case_bias > 0` the words go through
`make_chars_uppercase(words, case_bias)`; if `case_bias < 0` the uppercase
target is `total_alphabetic - |case_bias|` (clamped at zero, as the tests
demand when fewer alphabetic characters exist); `case_bias == 0` leaves the
words untouched. Numbers are appended after the words. -/
def Passphrase.generate_case_bias (s : Passphrase) (r : RandSrc) (sel : Nat → Bool)
    (case_bias : Int) : Passphrase × Except PyErr (List Token) :=
  if s.amount_n.isNone || s.amount_w.isNone || s.wordlistEmpty then
    (s, .error .valueError)
  else
    let wl := s.wordlist.getD []
    let words := (List.range (s.amount_w.getD 0)).map
      (fun k => wl.getD (r.choice k wl.length) [])
    let wordsData := wordsToCase words
    let adjusted :=
      if 0 < case_bias then
        make_chars_uppercase wordsData case_bias.toNat sel
      else if case_bias < 0 then
        make_chars_uppercase wordsData (totalAlphabetic wordsData - case_bias.natAbs) sel
      else wordsData
    let nums := (List.range (s.amount_n.getD 0)).map
      (fun k => Token.num (r.between k s.randnum_min s.randnum_max))
    let passphrase := (strsOf adjusted).map Token.word ++ nums
    ({ s with last_result := some passphrase }, .ok passphrase)

/-- A value appearing in a list handed to the static `entropy_bits`: a
number (int or float, embedded as a rational) or a word. -/
inductive PyVal where
  | num (q : ℚ)
  | word (w : List Char)

/-- Modelled from the spec: `calc.entropy_bits` lives in the absent
`calc.py`; it is `log2` of the collection size (spec section 4.2). -/
noncomputable def calc_entropy_bits (lst : List PyVal) : ℝ :=
  Real.logb 2 lst.length

/-- Modelled from the spec: `calc.entropy_bits_nrange` lives in the absent
`calc.py`; it is `log2(max - min + 1)` (spec section 4.2). -/
noncomputable def calc_entropy_bits_nrange (mini maxi : ℝ) : ℝ :=
  Real.logb 2 (maxi - mini + 1)

/-- Modelled from the spec: `calc.password_length_needed` lives in the
absent `calc.py`; it is `ceil(entropy_target / log2(charset_size))` with a
minimum result of 1 (spec section 4.2). -/
noncomputable def calc_password_length_needed (entropybits : ℝ) (characters : List Char) : ℤ :=
  max 1 ⌈entropybits / Real.logb 2 characters.length⌉

/-- Modelled from the spec: `calc.words_amount_needed` lives in the absent
`calc.py`; numbers contribute `bits_per_number * amount_numbers` bits and
the required words are `ceil(max(0, target - that) / bits_per_word)`
(spec section 4.2). -/
noncomputable def calc_words_amount_needed (entropybits entropy_w entropy_n : ℝ)
    (amount_n : Nat) : ℤ :=
  ⌈max 0 (entropybits - entropy_n * amount_n) / entropy_w⌉

/-- Static method `Passphrase.entropy_bits`: a two-element list of numbers
is treated as a numeric range, anything else as a collection. -/
noncomputable def Passphrase.entropy_bits (lst : List PyVal) : ℝ :=
  match lst with
  | [.num a, .num b] => calc_entropy_bits_nrange a b
  | _ => calc_entropy_bits lst

/-- Modelled from the spec: `wordlist.json` is absent from the snapshot; the
spec records an internal EFF Large Wordlist of 7776 words. Only its length
is semantically relevant here. -/
def internalWordlist : List (List Char) := List.replicate 7776 ['w']

/-- Modelled from the spec: the precomputed `entropy_bits` value stored next
to the internal wordlist, `log2` of its 7776 words (about 12.92, the value
the spec rounds to ~12.9). -/
noncomputable def internalWordlistEntropyBits : ℝ := Real.logb 2 7776

/-- `Passphrase.load_internal_wordlist`: installs the internal wordlist with
its precomputed entropy and marks it non-external. -/
noncomputable def Passphrase.load_internal_wordlist (s : Passphrase) : Passphrase :=
  { s with wordlist := some internalWordlist,
           wordlist_entropy_bits := some internalWordlistEntropyBits,
           external_wordlist := false }

/-- `Passphrase.words_amount_needed`: validates, computes the number-range
entropy from the configured bounds, picks the precomputed wordlist entropy
for the internal list or `entropy_bits(wordlist)` for an external one, and
delegates to `calc.words_amount_needed`. -/
noncomputable def Passphrase.words_amount_needed (s : Passphrase) : Except PyErr ℤ :=
  if s.entropy_bits_req.isNone || s.amount_n.isNone || s.wordlistEmpty then
    .error .valueError
  else
    let entropy_n := Passphrase.entropy_bits
      [.num (s.randnum_min : ℚ), .num (s.randnum_max : ℚ)]
    let entropy_w :=
      if s.external_wordlist = false then s.wordlist_entropy_bits.getD 0
      else Passphrase.entropy_bits ((s.wordlist.getD []).map PyVal.word)
    .ok (calc_words_amount_needed (s.entropy_bits_req.getD 0) entropy_w entropy_n
      (s.amount_n.getD 0))

/-- `Passphrase.password_length_needed`: validates and delegates to
`calc.password_length_needed` over the active character set. -/
noncomputable def Passphrase.password_length_needed (s : Passphrase) : Except PyErr ℤ :=
  let characters := s.get_password_characters
  if s.entropy_bits_req.isNone || characters.isEmpty then
    .error .valueError
  else
    .ok (calc_password_length_needed (s.entropy_bits_req.getD 0) characters)

/-- A valid code point round-trips through `Char.ofNat`. -/
theorem toNat_ofNat_valid (n : Nat) (h : n.isValidChar) : (Char.ofNat n).toNat = n := by
  simp [Char.ofNat, h]
  rfl

/-- `Char.isLower` unfolded to code-point bounds. -/
theorem isLower_iff (c : Char) : c.isLower = true ↔ 97 ≤ c.toNat ∧ c.toNat ≤ 122 := by
  constructor
  · intro h
    simp [Char.isLower, decide_eq_true_eq] at h
    exact ⟨h.1, h.2⟩
  · intro h
    simp [Char.isLower, decide_eq_true_eq]
    exact ⟨h.1, h.2⟩

/-- `Char.isUpper` unfolded to code-point bounds. -/
theorem isUpper_iff (c : Char) : c.isUpper = true ↔ 65 ≤ c.toNat ∧ c.toNat ≤ 90 := by
  constructor
  · intro h
    simp [Char.isUpper, decide_eq_true_eq] at h
    exact ⟨h.1, h.2⟩
  · intro h
    simp [Char.isUpper, decide_eq_true_eq]
    exact ⟨h.1, h.2⟩

/-- Uppercasing a lowercase character subtracts 32 from its code point. -/
theorem toUpper_of_lower (c : Char) (h : c.isLower = true) :
    (c.toUpper).toNat = c.toNat - 32 := by
  rw [isLower_iff] at h
  have hv : (c.toNat - 32).isValidChar := by
    left
    omega
  simp [Char.toUpper]
  rw [if_pos ⟨h.1, h.2⟩]
  exact toNat_ofNat_valid _ hv

/-- `Char.toUpper` fixes everything but lowercase characters. -/
theorem toUpper_of_not_lower (c : Char) (h : c.isLower = false) : c.toUpper = c := by
  have h2 : ¬(97 ≤ c.toNat ∧ c.toNat ≤ 122) := by
    intro hc
    rw [← Bool.not_eq_true] at h
    exact h ((isLower_iff c).2 hc)
  simp [Char.toUpper]
  intro h1 hle
  exact absurd ⟨h1, hle⟩ h2

/-- Uppercasing a lowercase character yields an uppercase one. -/
theorem lower_toUpper_isUpper (c : Char) (h : c.isLower = true) :
    (c.toUpper).isUpper = true := by
  rw [isUpper_iff, toUpper_of_lower c h]
  rw [isLower_iff] at h
  omega

/-- `Char.isAlpha` split into its two cases. -/
theorem isAlpha_iff (c : Char) : c.isAlpha = true ↔ c.isUpper = true ∨ c.isLower = true := by
  simp [Char.isAlpha]

/-- No character is upper- and lowercase at once. -/
theorem upper_not_lower (c : Char) (h : c.isUpper = true) : c.isLower = false := by
  rw [isUpper_iff] at h
  rw [← Bool.not_eq_true, isLower_iff]
  omega

/-- No character is lower- and uppercase at once. -/
theorem lower_not_upper (c : Char) (h : c.isLower = true) : c.isUpper = false := by
  rw [isLower_iff] at h
  rw [← Bool.not_eq_true, isUpper_iff]
  omega

/-- Uppercase characters are alphabetic. -/
theorem upper_isAlpha (c : Char) (h : c.isUpper = true) : c.isAlpha = true :=
  (isAlpha_iff c).2 (Or.inl h)

/-- Lowercase characters are alphabetic. -/
theorem lower_isAlpha (c : Char) (h : c.isLower = true) : c.isAlpha = true :=
  (isAlpha_iff c).2 (Or.inr h)

/-- An alphabetic, non-lowercase character is uppercase. -/
theorem alpha_not_lower_upper (c : Char) (hA : c.isAlpha = true) (hL : c.isLower = false) :
    c.isUpper = true := by
  rcases (isAlpha_iff c).1 hA with h | h
  · exact h
  · rw [h] at hL
    exact absurd hL (by simp)

/-- Uppercasing an alphabetic character yields an uppercase one. -/
theorem alpha_toUpper_isUpper (c : Char) (hA : c.isAlpha = true) :
    (c.toUpper).isUpper = true := by
  by_cases hL : c.isLower = true
  · exact lower_toUpper_isUpper c hL
  · rw [toUpper_of_not_lower c (by simpa using hL)]
    exact alpha_not_lower_upper c hA (by simpa using hL)

/-- Non-alphabetic characters are untouched by `Char.toUpper`. -/
theorem not_alpha_toUpper (c : Char) (hA : c.isAlpha = false) : c.toUpper = c := by
  apply toUpper_of_not_lower
  rw [← Bool.not_eq_true] at hA ⊢
  intro h
  exact hA (lower_isAlpha c h)

/-- If the uppercased character is alphabetic then it is uppercase. -/
theorem toUpper_alpha_upper (c : Char) (hA : (c.toUpper).isAlpha = true) :
    (c.toUpper).isUpper = true := by
  by_cases hL : c.isLower = true
  · exact lower_toUpper_isUpper c hL
  · rw [toUpper_of_not_lower c (by simpa using hL)] at hA ⊢
    exact alpha_not_lower_upper c hA (by simpa using hL)

theorem alphaCnt_nil : alphaCnt [] = 0 := rfl

theorem alphaCnt_cons (c : Char) (cs : List Char) :
    alphaCnt (c :: cs) = (if c.isAlpha then 1 else 0) + alphaCnt cs := by
  simp only [alphaCnt, List.filter_cons]
  by_cases h : c.isAlpha
  · simp [h]
    omega
  · simp [h]

theorem alphaCnt_append (as bs : List Char) :
    alphaCnt (as ++ bs) = alphaCnt as + alphaCnt bs := by
  simp [alphaCnt, List.filter_append]

theorem upperCnt_cons (c : Char) (cs : List Char) :
    upperCnt (c :: cs) = (if c.isUpper then 1 else 0) + upperCnt cs := by
  simp only [upperCnt, List.filter_cons]
  by_cases h : c.isUpper
  · simp [h]
    omega
  · simp [h]

theorem upperCnt_append (as bs : List Char) :
    upperCnt (as ++ bs) = upperCnt as + upperCnt bs := by
  simp [upperCnt, List.filter_append]

theorem lowerCnt_cons (c : Char) (cs : List Char) :
    lowerCnt (c :: cs) = (if c.isLower then 1 else 0) + lowerCnt cs := by
  simp only [lowerCnt, List.filter_cons]
  by_cases h : c.isLower
  · simp [h]
    omega
  · simp [h]

theorem lowerCnt_append (as bs : List Char) :
    lowerCnt (as ++ bs) = lowerCnt as + lowerCnt bs := by
  simp [lowerCnt, List.filter_append]

/-- Lowercase characters are counted among the alphabetic ones. -/
theorem lowerCnt_le_alphaCnt (cs : List Char) : lowerCnt cs ≤ alphaCnt cs := by
  induction cs with
  | nil => simp [alphaCnt, lowerCnt]
  | cons c cs ih =>
    rw [lowerCnt_cons, alphaCnt_cons]
    by_cases h : c.isLower = true
    · rw [h, lower_isAlpha c h]
      simp
      omega
    · have h2 : (if c.isLower then 1 else 0) = 0 := by simp [h]
      rw [h2]
      by_cases hA : c.isAlpha
      · simp only [hA, if_true]
        omega
      · simp only [hA, if_false]
        omega

theorem selCnt_zero (sel : Nat → Bool) (i : Nat) : selCnt sel i 0 = 0 := rfl

theorem selCnt_succ (sel : Nat → Bool) (i m : Nat) :
    selCnt sel i (m + 1) = (if sel i then 1 else 0) + selCnt sel (i + 1) m := rfl

/-- No index of the window is selected iff the window count is zero. -/
theorem selCnt_eq_zero_iff (sel : Nat → Bool) (i m : Nat) :
    selCnt sel i m = 0 ↔ ∀ j, i ≤ j → j < i + m → sel j = false := by
  induction m generalizing i with
  | zero =>
    simp [selCnt_zero]
    omega
  | succ m ih =>
    rw [selCnt_succ]
    constructor
    · intro h j hij hjm
      have h1 : sel i = false ∧ selCnt sel (i + 1) m = 0 := by
        by_cases hs : sel i
        · simp [hs] at h
        · refine ⟨by simpa using hs, ?_⟩
          simpa [hs] using h
      rcases Nat.eq_or_lt_of_le hij with heq | hlt
      · rw [← heq]
        exact h1.1
      · exact (ih (i + 1)).1 h1.2 j hlt (by omega)
    · intro h
      have hs : sel i = false := h i (le_refl i) (by omega)
      rw [hs]
      simp only [Bool.false_eq_true, if_false, Nat.zero_add]
      exact (ih (i + 1)).2 (fun j h1 h2 => h j (by omega) (by omega))

/-- Unfolding equation of `upperChars` at an alphabetic head. -/
theorem upperChars_cons_alpha (sel : Nat → Bool) (i : Nat) (c : Char) (cs : List Char)
    (h : c.isAlpha = true) :
    upperChars sel i (c :: cs) =
      ((if sel i then c.toUpper else c) :: (upperChars sel (i + 1) cs).1,
        (upperChars sel (i + 1) cs).2) := by
  simp only [upperChars, h, if_true]

/-- Unfolding equation of `upperChars` at a non-alphabetic head. -/
theorem upperChars_cons_not_alpha (sel : Nat → Bool) (i : Nat) (c : Char) (cs : List Char)
    (h : c.isAlpha = false) :
    upperChars sel i (c :: cs) =
      (c :: (upperChars sel i cs).1, (upperChars sel i cs).2) := by
  simp only [upperChars, h, Bool.false_eq_true, if_false]

/-- `alphaCnt` at an alphabetic head. -/
theorem alphaCnt_cons_alpha (c : Char) (cs : List Char) (h : c.isAlpha = true) :
    alphaCnt (c :: cs) = 1 + alphaCnt cs := by
  rw [alphaCnt_cons, h]
  simp

/-- `alphaCnt` at a non-alphabetic head. -/
theorem alphaCnt_cons_not_alpha (c : Char) (cs : List Char) (h : c.isAlpha = false) :
    alphaCnt (c :: cs) = alphaCnt cs := by
  rw [alphaCnt_cons, h]
  simp

/-- The selection pass preserves length. -/
theorem upperChars_length (sel : Nat → Bool) (i : Nat) (cs : List Char) :
    (upperChars sel i cs).1.length = cs.length := by
  induction cs generalizing i with
  | nil => rfl
  | cons c cs ih =>
    by_cases h : c.isAlpha
    · rw [upperChars_cons_alpha sel i c cs h]
      simp [ih]
    · rw [upperChars_cons_not_alpha sel i c cs (by simpa using h)]
      simp [ih]

/-- The selection pass advances the alphabetic index by the number of
alphabetic characters seen. -/
theorem upperChars_snd (sel : Nat → Bool) (i : Nat) (cs : List Char) :
    (upperChars sel i cs).2 = i + alphaCnt cs := by
  induction cs generalizing i with
  | nil => simp [upperChars, alphaCnt]
  | cons c cs ih =>
    by_cases h : c.isAlpha
    · rw [upperChars_cons_alpha sel i c cs h, alphaCnt_cons_alpha c cs h]
      rw [ih]
      omega
    · rw [upperChars_cons_not_alpha sel i c cs (by simpa using h),
        alphaCnt_cons_not_alpha c cs (by simpa using h)]
      exact ih i

/-- The selection pass distributes over append, shifting the index. -/
theorem upperChars_append (sel : Nat → Bool) (i : Nat) (as bs : List Char) :
    upperChars sel i (as ++ bs) =
      ((upperChars sel i as).1 ++ (upperChars sel (i + alphaCnt as) bs).1,
        (upperChars sel (i + alphaCnt as) bs).2) := by
  induction as generalizing i with
  | nil => simp [upperChars, alphaCnt]
  | cons c cs ih =>
    by_cases h : c.isAlpha
    · rw [List.cons_append, upperChars_cons_alpha sel i c (cs ++ bs) h,
        upperChars_cons_alpha sel i c cs h, alphaCnt_cons_alpha c cs h]
      rw [ih]
      have harith : i + (1 + alphaCnt cs) = i + 1 + alphaCnt cs := by omega
      rw [harith, List.cons_append]
    · rw [List.cons_append, upperChars_cons_not_alpha sel i c (cs ++ bs) (by simpa using h),
        upperChars_cons_not_alpha sel i c cs (by simpa using h),
        alphaCnt_cons_not_alpha c cs (by simpa using h)]
      rw [ih]
      rw [List.cons_append]

/-- If no index of the window is selected the pass is the identity. -/
theorem upperChars_noop (sel : Nat → Bool) (i : Nat) (cs : List Char)
    (h : ∀ j, i ≤ j → j < i + alphaCnt cs → sel j = false) :
    upperChars sel i cs = (cs, i + alphaCnt cs) := by
  induction cs generalizing i with
  | nil => simp [upperChars, alphaCnt]
  | cons c cs ih =>
    by_cases hA : c.isAlpha
    · have hcnt := alphaCnt_cons_alpha c cs hA
      have hs : sel i = false := h i (le_refl i) (by rw [hcnt]; omega)
      rw [upperChars_cons_alpha sel i c cs hA, hs,
        ih (i + 1) (fun j h1 h2 => h j (by omega) (by rw [hcnt]; omega)), hcnt]
      simp
      omega
    · have hA' : c.isAlpha = false := by simpa using hA
      have hcnt := alphaCnt_cons_not_alpha c cs hA'
      rw [upperChars_cons_not_alpha sel i c cs hA',
        ih i (fun j h1 h2 => h j h1 (by rw [hcnt]; omega)), hcnt]

/-- Per-position characterization of the selection pass: the character at
position `k` is uppercased exactly when it is alphabetic and its alphabetic
index is selected; otherwise it is copied unchanged. -/
theorem upperChars_getD (sel : Nat → Bool) (i : Nat) (cs : List Char) (k : Nat) (d0 : Char)
    (hk : k < cs.length) :
    (upperChars sel i cs).1.getD k d0 =
      (if (cs.getD k d0).isAlpha && sel (i + alphaCnt (cs.take k)) then
        (cs.getD k d0).toUpper
      else cs.getD k d0) := by
  induction cs generalizing i k with
  | nil => simp at hk
  | cons c cs ih =>
    by_cases hA : c.isAlpha
    · rw [upperChars_cons_alpha sel i c cs hA]
      match k with
      | 0 =>
        simp only [List.getD_cons_zero, List.take_zero, alphaCnt_nil, Nat.add_zero, hA,
          Bool.true_and]
      | k + 1 =>
        simp only [List.getD_cons_succ, List.take_succ_cons]
        rw [ih (i + 1) k (by simpa using hk), alphaCnt_cons_alpha c (cs.take k) hA]
        have harith : i + (1 + alphaCnt (cs.take k)) = i + 1 + alphaCnt (cs.take k) := by
          omega
        rw [harith]
    · have hA' : c.isAlpha = false := by simpa using hA
      rw [upperChars_cons_not_alpha sel i c cs hA']
      match k with
      | 0 =>
        simp [List.getD_cons_zero, hA']
      | k + 1 =>
        simp only [List.getD_cons_succ, List.take_succ_cons]
        rw [ih i k (by simpa using hk), alphaCnt_cons_not_alpha c (cs.take k) hA']

/-- Counting: when only lowercase alphabetic positions can be selected, the
selection pass adds exactly the number of selected window indices to the
uppercase count. -/
theorem upperChars_upperCnt (sel : Nat → Bool) (i : Nat) (cs : List Char)
    (H : ∀ j, i ≤ j → j < i + alphaCnt cs → sel j = true →
      ((cs.filter Char.isAlpha).getD (j - i) 'a').isLower = true) :
    upperCnt (upperChars sel i cs).1 = upperCnt cs + selCnt sel i (alphaCnt cs) := by
  induction cs generalizing i with
  | nil => simp [upperChars, alphaCnt, selCnt_zero]
  | cons c cs ih =>
    by_cases hA : c.isAlpha
    · have hfil : (c :: cs).filter Char.isAlpha = c :: cs.filter Char.isAlpha := by
        simp [List.filter_cons, hA]
      have hcnt := alphaCnt_cons_alpha c cs hA
      have Hshift : ∀ j, i + 1 ≤ j → j < i + 1 + alphaCnt cs → sel j = true →
          ((cs.filter Char.isAlpha).getD (j - (i + 1)) 'a').isLower = true := by
        intro j h1 h2 hs
        have hj := H j (by omega) (by rw [hcnt]; omega) hs
        rw [hfil] at hj
        have hidx : j - i = (j - (i + 1)) + 1 := by omega
        rw [hidx, List.getD_cons_succ] at hj
        exact hj
      rw [upperChars_cons_alpha sel i c cs hA, upperCnt_cons, upperCnt_cons, hcnt,
        Nat.add_comm 1 (alphaCnt cs), selCnt_succ, ih (i + 1) Hshift]
      by_cases hs : sel i
      · have hcl : c.isLower = true := by
          have hj := H i (le_refl i) (by rw [hcnt]; omega) (by simpa using hs)
          rw [hfil] at hj
          simpa using hj
        have h1 : (c.toUpper).isUpper = true := lower_toUpper_isUpper c hcl
        have h2 : c.isUpper = false := lower_not_upper c hcl
        simp only [hs, if_true, h1, h2, Bool.false_eq_true, if_false]
        omega
      · have hs' : sel i = false := by simpa using hs
        simp only [hs', Bool.false_eq_true, if_false]
        omega
    · have hA' : c.isAlpha = false := by simpa using hA
      have hfil : (c :: cs).filter Char.isAlpha = cs.filter Char.isAlpha := by
        simp [List.filter_cons, hA']
      have hcnt := alphaCnt_cons_not_alpha c cs hA'
      have hcu : c.isUpper = false := by
        rw [← Bool.not_eq_true]
        intro hu
        rw [upper_isAlpha c hu] at hA'
        exact absurd hA' (by simp)
      have Hsame : ∀ j, i ≤ j → j < i + alphaCnt cs → sel j = true →
          ((cs.filter Char.isAlpha).getD (j - i) 'a').isLower = true := by
        intro j h1 h2 hs
        have hj := H j h1 (by rw [hcnt]; omega) hs
        rw [hfil] at hj
        exact hj
      rw [upperChars_cons_not_alpha sel i c cs hA', upperCnt_cons, upperCnt_cons, hcnt,
        ih i Hsame]
      omega

mutual
/-- The tree selection pass flattens to the list selection pass. -/
theorem applySel_flat (sel : Nat → Bool) (i : Nat) (d : CaseData) :
    charsOf (applySel sel i d).1 = (upperChars sel i (charsOf d)).1 ∧
    (applySel sel i d).2 = i + alphaCnt (charsOf d) := by
  match d with
  | .str s =>
    constructor
    · simp [applySel, charsOf]
    · simp [applySel, charsOf, upperChars_snd]
  | .num z =>
    constructor
    · simp [applySel, charsOf, upperChars]
    · simp [applySel, charsOf, alphaCnt, upperChars]
  | .ordered xs =>
    simp only [applySel, charsOf]
    exact applySelList_flat sel i xs
  | .unordered xs =>
    simp only [applySel, charsOf]
    exact applySelList_flat sel i xs

/-- The forest selection pass flattens to the list selection pass. -/
theorem applySelList_flat (sel : Nat → Bool) (i : Nat) (xs : CaseList) :
    charsOfList (applySelList sel i xs).1 = (upperChars sel i (charsOfList xs)).1 ∧
    (applySelList sel i xs).2 = i + alphaCnt (charsOfList xs) := by
  match xs with
  | .nil =>
    simp only [applySelList, charsOfList]
    simp [upperChars, alphaCnt]
  | .cons x xs =>
    have hx := applySel_flat sel i x
    simp only [applySelList, charsOfList]
    rw [upperChars_append, hx.1, hx.2]
    have hxs := applySelList_flat sel (i + alphaCnt (charsOf x)) xs
    constructor
    · rw [hxs.1]
    · rw [hxs.2, alphaCnt_append]
      omega
end

mutual
/-- If no index of the window is selected, the tree pass is the identity. -/
theorem applySel_noop (sel : Nat → Bool) (i : Nat) (d : CaseData)
    (h : ∀ j, i ≤ j → j < i + alphaCnt (charsOf d) → sel j = false) :
    applySel sel i d = (d, i + alphaCnt (charsOf d)) := by
  match d with
  | .str s =>
    simp only [applySel, charsOf] at h ⊢
    rw [upperChars_noop sel i s h]
  | .num z =>
    simp [applySel, charsOf, alphaCnt_nil]
  | .ordered xs =>
    simp only [applySel, charsOf] at h ⊢
    rw [applySelList_noop sel i xs h]
  | .unordered xs =>
    simp only [applySel, charsOf] at h ⊢
    rw [applySelList_noop sel i xs h]

/-- If no index of the window is selected, the forest pass is the identity. -/
theorem applySelList_noop (sel : Nat → Bool) (i : Nat) (xs : CaseList)
    (h : ∀ j, i ≤ j → j < i + alphaCnt (charsOfList xs) → sel j = false) :
    applySelList sel i xs = (xs, i + alphaCnt (charsOfList xs)) := by
  match xs with
  | .nil =>
    simp [applySelList, charsOfList, alphaCnt_nil]
  | .cons x xs =>
    have hcnt : alphaCnt (charsOfList (CaseList.cons x xs)) =
        alphaCnt (charsOf x) + alphaCnt (charsOfList xs) := by
      simp only [charsOfList]
      exact alphaCnt_append _ _
    have hx := applySel_noop sel i x
      (fun j h1 h2 => h j h1 (by rw [hcnt]; omega))
    have hxs := applySelList_noop sel (i + alphaCnt (charsOf x)) xs
      (fun j h1 h2 => h j (by omega) (by rw [hcnt]; omega))
    simp only [applySelList]
    rw [hx]
    simp only
    rw [hxs, hcnt]
    simp
    omega
end

/-- Mapping `Char.toUpper` over an alphabet-free list is the identity. -/
theorem map_toUpper_id (cs : List Char) (h : alphaCnt cs = 0) :
    cs.map Char.toUpper = cs := by
  induction cs with
  | nil => rfl
  | cons c cs ih =>
    rw [alphaCnt_cons] at h
    by_cases hA : c.isAlpha
    · simp [hA] at h
    · have hA' : c.isAlpha = false := by simpa using hA
      simp only [List.map_cons, not_alpha_toUpper c hA']
      rw [ih (by simpa [hA'] using h)]

mutual
/-- The all-uppercase branch flattens to mapping `Char.toUpper`. -/
theorem charsOf_makeAll (d : CaseData) :
    charsOf (makeAllUppercase d) = (charsOf d).map Char.toUpper := by
  match d with
  | .str s => simp [makeAllUppercase, charsOf]
  | .num z => simp [makeAllUppercase, charsOf]
  | .ordered xs =>
    simp only [makeAllUppercase, charsOf]
    exact charsOfList_makeAll xs
  | .unordered xs =>
    simp only [makeAllUppercase, charsOf]
    exact charsOfList_makeAll xs

/-- The all-uppercase branch on forests flattens to mapping `Char.toUpper`. -/
theorem charsOfList_makeAll (xs : CaseList) :
    charsOfList (makeAllUppercaseList xs) = (charsOfList xs).map Char.toUpper := by
  match xs with
  | .nil => simp [makeAllUppercaseList, charsOfList]
  | .cons x xs =>
    simp only [makeAllUppercaseList, charsOfList, List.map_append]
    rw [charsOf_makeAll x, charsOfList_makeAll xs]
end

mutual
/-- On alphabet-free trees the all-uppercase branch is the identity. -/
theorem makeAll_id (d : CaseData) (h : alphaCnt (charsOf d) = 0) :
    makeAllUppercase d = d := by
  match d with
  | .str s =>
    simp only [makeAllUppercase, charsOf] at h ⊢
    rw [map_toUpper_id s h]
  | .num z => simp [makeAllUppercase]
  | .ordered xs =>
    simp only [makeAllUppercase, charsOf] at h ⊢
    rw [makeAllList_id xs h]
  | .unordered xs =>
    simp only [makeAllUppercase, charsOf] at h ⊢
    rw [makeAllList_id xs h]

/-- On alphabet-free forests the all-uppercase branch is the identity. -/
theorem makeAllList_id (xs : CaseList) (h : alphaCnt (charsOfList xs) = 0) :
    makeAllUppercaseList xs = xs := by
  match xs with
  | .nil => simp [makeAllUppercaseList]
  | .cons x xs =>
    have hcnt : alphaCnt (charsOf x) + alphaCnt (charsOfList xs) = 0 := by
      rw [← alphaCnt_append]
      simpa [charsOfList] using h
    simp only [makeAllUppercaseList]
    rw [makeAll_id x (by omega), makeAllList_id xs (by omega)]
end

mutual
/-- The tree selection pass preserves container shape and kinds. -/
theorem sameShape_applySel (sel : Nat → Bool) (i : Nat) (d : CaseData) :
    sameShape d (applySel sel i d).1 = true := by
  match d with
  | .str s =>
    simp only [applySel, sameShape]
    simp [upperChars_length]
  | .num z => simp [applySel, sameShape]
  | .ordered xs =>
    simp only [applySel, sameShape]
    exact sameShapeList_applySel sel i xs
  | .unordered xs =>
    simp only [applySel, sameShape]
    exact sameShapeList_applySel sel i xs

/-- The forest selection pass preserves container shape and kinds. -/
theorem sameShapeList_applySel (sel : Nat → Bool) (i : Nat) (xs : CaseList) :
    sameShapeList xs (applySelList sel i xs).1 = true := by
  match xs with
  | .nil => simp [applySelList, sameShapeList]
  | .cons x xs =>
    simp only [applySelList, sameShapeList]
    rw [sameShape_applySel sel i x, sameShapeList_applySel sel ((applySel sel i x).2) xs]
    rfl
end

mutual
/-- The all-uppercase branch preserves container shape and kinds. -/
theorem sameShape_makeAll (d : CaseData) :
    sameShape d (makeAllUppercase d) = true := by
  match d with
  | .str s =>
    simp [makeAllUppercase, sameShape]
  | .num z => simp [makeAllUppercase, sameShape]
  | .ordered xs =>
    simp only [makeAllUppercase, sameShape]
    exact sameShapeList_makeAll xs
  | .unordered xs =>
    simp only [makeAllUppercase, sameShape]
    exact sameShapeList_makeAll xs

/-- The all-uppercase branch preserves forest shape and kinds. -/
theorem sameShapeList_makeAll (xs : CaseList) :
    sameShapeList xs (makeAllUppercaseList xs) = true := by
  match xs with
  | .nil => simp [makeAllUppercaseList, sameShapeList]
  | .cons x xs =>
    simp only [makeAllUppercaseList, sameShapeList]
    rw [sameShape_makeAll x, sameShapeList_makeAll xs]
    rfl
end

/-- Every alphabetic leaf character of the structure is uppercase. -/
def allAlphaUpper (d : CaseData) : Bool :=
  (charsOf d).all fun c => !c.isAlpha || c.isUpper

/-- Splitting a lawful selection into its two constraints: only lowercase
alphabetic positions are selected. -/
theorem lawfulSel_onlyLower (d : CaseData) (count : Nat) (sel : Nat → Bool)
    (h : lawfulSelB d count sel = true) :
    ∀ j, j < totalAlphabetic d → sel j = true →
      (((charsOf d).filter Char.isAlpha).getD j 'a').isLower = true := by
  intro j hj hs
  rw [lawfulSelB, Bool.and_eq_true] at h
  have h1 := h.1
  rw [List.all_eq_true] at h1
  have h2 := h1 j (List.mem_range.2 hj)
  rw [hs] at h2
  simpa using h2

/-- Splitting a lawful selection into its two constraints: the selected
count is exactly `min count (lowerCount d)`. -/
theorem lawfulSel_selCnt (d : CaseData) (count : Nat) (sel : Nat → Bool)
    (h : lawfulSelB d count sel = true) :
    selCnt sel 0 (totalAlphabetic d) = min count (lowerCount d) := by
  rw [lawfulSelB, Bool.and_eq_true] at h
  simpa using h.2

/-- `make_chars_uppercase` preserves container shape and kinds. -/
theorem mcu_sameShape (d : CaseData) (count : Nat) (sel : Nat → Bool) :
    sameShape d (make_chars_uppercase d count sel) = true := by
  rw [make_chars_uppercase]
  by_cases h : totalAlphabetic d ≤ count
  · rw [if_pos h]
    exact sameShape_makeAll d
  · rw [if_neg h]
    exact sameShape_applySel sel 0 d

/-- Per-position characterization of `make_chars_uppercase`: position `k` is
uppercased exactly when it is alphabetic and effectively selected, and
copied unchanged otherwise. -/
theorem mcu_getD (d : CaseData) (count : Nat) (sel : Nat → Bool) (k : Nat) (d0 : Char)
    (hk : k < (charsOf d).length) :
    (charsOf (make_chars_uppercase d count sel)).getD k d0 =
      (if ((charsOf d).getD k d0).isAlpha &&
          effSel d count sel (alphaCnt ((charsOf d).take k)) then
        ((charsOf d).getD k d0).toUpper
      else (charsOf d).getD k d0) := by
  rw [make_chars_uppercase, effSel]
  by_cases h : totalAlphabetic d ≤ count
  · rw [if_pos h, if_pos h, charsOf_makeAll]
    rw [List.getD_eq_getElem _ _ (by simpa using hk), List.getD_eq_getElem _ _ hk,
      List.getElem_map]
    by_cases hA : ((charsOf d)[k]).isAlpha
    · simp [hA]
    · have hA' : ((charsOf d)[k]).isAlpha = false := by simpa using hA
      simp only [hA', Bool.false_and, Bool.false_eq_true, if_false]
      exact not_alpha_toUpper _ hA'
  · rw [if_neg h, if_neg h, (applySel_flat sel 0 d).1]
    have := upperChars_getD sel 0 (charsOf d) k d0 hk
    simpa using this

/-- With a lawful selection, `make_chars_uppercase(data, 0)` returns the
input unchanged. -/
theorem mcu_zero (d : CaseData) (sel : Nat → Bool)
    (h : lawfulSelB d 0 sel = true) :
    make_chars_uppercase d 0 sel = d := by
  rw [make_chars_uppercase]
  by_cases hA : totalAlphabetic d ≤ 0
  · rw [if_pos hA]
    exact makeAll_id d (by simpa [totalAlphabetic] using hA)
  · rw [if_neg hA]
    have hcnt := lawfulSel_selCnt d 0 sel h
    simp only [Nat.zero_min] at hcnt
    have hnone : ∀ j, 0 ≤ j → j < 0 + totalAlphabetic d → sel j = false :=
      (selCnt_eq_zero_iff sel 0 (totalAlphabetic d)).1 hcnt
    rw [applySel_noop sel 0 d (by simpa [totalAlphabetic] using hnone)]

/-- When the count covers every alphabetic character, the result is the
all-uppercase copy and every alphabetic character is uppercase. -/
theorem mcu_all (d : CaseData) (count : Nat) (sel : Nat → Bool)
    (h : totalAlphabetic d ≤ count) :
    make_chars_uppercase d count sel = makeAllUppercase d ∧
    allAlphaUpper (make_chars_uppercase d count sel) = true := by
  rw [make_chars_uppercase, if_pos h]
  refine ⟨rfl, ?_⟩
  rw [allAlphaUpper, charsOf_makeAll, List.all_eq_true]
  intro c' hc'
  rcases List.mem_map.1 hc' with ⟨c, _, rfl⟩
  by_cases hA : (c.toUpper).isAlpha
  · simp [hA, toUpper_alpha_upper c hA]
  · have hA2 : (c.toUpper).isAlpha = false := by simpa using hA
    simp [hA2]

/-- With a lawful selection of count at most the available lowercase
characters, `make_chars_uppercase` adds exactly `count` uppercase
characters. -/
theorem mcu_count (d : CaseData) (count : Nat) (sel : Nat → Bool)
    (h : lawfulSelB d count sel = true)
    (hlt : count < totalAlphabetic d)
    (hle : count ≤ lowerCount d) :
    upperCount (make_chars_uppercase d count sel) = upperCount d + count := by
  rw [make_chars_uppercase, if_neg (by omega)]
  have hflat := (applySel_flat sel 0 d).1
  rw [upperCount, hflat]
  have H : ∀ j, 0 ≤ j → j < 0 + alphaCnt (charsOf d) → sel j = true →
      (((charsOf d).filter Char.isAlpha).getD (j - 0) 'a').isLower = true := by
    intro j _ hj hs
    have := lawfulSel_onlyLower d count sel h j (by simpa [totalAlphabetic] using hj) hs
    simpa using this
  rw [upperChars_upperCnt sel 0 (charsOf d) H]
  have hc := lawfulSel_selCnt d count sel h
  rw [totalAlphabetic] at hc
  rw [hc]
  have : min count (lowerCount d) = count := by omega
  rw [this]
  rfl

/-- C3 fails as stated: on `"ABc"` with `count = 2` (which is below the
total of 3 alphabetic characters) any lawful selection can only pick the
single lowercase character, so exactly one - not two - characters become
uppercase beyond those already uppercase. -/
theorem make_chars_uppercase_exact_count_counterexample :
    lawfulSelB (CaseData.str ['A', 'B', 'c']) 2 (fun j => j == 2) = true ∧
    0 < 2 ∧ 2 < totalAlphabetic (CaseData.str ['A', 'B', 'c']) ∧
    ¬(upperCount (make_chars_uppercase (CaseData.str ['A', 'B', 'c']) 2 (fun j => j == 2)) =
      upperCount (CaseData.str ['A', 'B', 'c']) + 2) := by
  decide

/-- C3 (amended: the exact-count clause additionally needs
`count ≤ lowerCount data`, i.e. enough lowercase characters must exist):
for every supported data and lawful selection, `make_chars_uppercase(data, 0)`
returns the input with identical casing; if `count ≥ total_alphabetic(data)`
every alphabetic character of the result is uppercase; and if
`0 < count < total_alphabetic(data)` with `count ≤ lowerCount data` then
exactly `count` alphabetic characters become uppercase beyond those already
uppercase, while every position whose alphabetic index is not selected
retains its original character. -/
theorem make_chars_uppercase_contract (d : CaseData) (count : Nat) (sel : Nat → Bool)
    (h : lawfulSelB d count sel = true) :
    (count = 0 → make_chars_uppercase d count sel = d) ∧
    (totalAlphabetic d ≤ count →
      allAlphaUpper (make_chars_uppercase d count sel) = true) ∧
    (0 < count → count < totalAlphabetic d → count ≤ lowerCount d →
      upperCount (make_chars_uppercase d count sel) = upperCount d + count ∧
      ∀ k d0, k < (charsOf d).length →
        sel (alphaCnt ((charsOf d).take k)) = false →
        (charsOf (make_chars_uppercase d count sel)).getD k d0 =
          (charsOf d).getD k d0) := by
  refine ⟨?_, ?_, ?_⟩
  · intro hc
    rw [hc] at h ⊢
    exact mcu_zero d sel h
  · intro hc
    exact (mcu_all d count sel hc).2
  · intro h0 hlt hle
    refine ⟨mcu_count d count sel h hlt hle, ?_⟩
    intro k d0 hk hns
    rw [mcu_getD d count sel k d0 hk]
    have heff : effSel d count sel = sel := by
      rw [effSel, if_neg (by omega)]
    rw [heff, hns]
    simp

/-- Witness for C3 at `"abc"` with `count = 2` and the selection picking the
first two alphabetic positions. -/
theorem make_chars_uppercase_contract_witness :
    lawfulSelB (CaseData.str ['a', 'b', 'c']) 2 (fun j => j == 0 || j == 1) = true ∧
    upperCount (make_chars_uppercase (CaseData.str ['a', 'b', 'c']) 2
      (fun j => j == 0 || j == 1)) =
      upperCount (CaseData.str ['a', 'b', 'c']) + 2 := by
  refine ⟨by decide, ?_⟩
  exact ((make_chars_uppercase_contract (CaseData.str ['a', 'b', 'c']) 2
    (fun j => j == 0 || j == 1) (by decide)).2.2 (by decide) (by decide) (by decide)).1

/-- C4: `make_chars_uppercase` returns a value with the identical container
shape and kinds as its input at every nesting level (strings stay strings,
ordered sequences stay ordered, unordered sets stay unordered), and every
leaf character at a non-effectively-selected position is unchanged. -/
theorem make_chars_uppercase_shape_frame (d : CaseData) (count : Nat) (sel : Nat → Bool) :
    sameShape d (make_chars_uppercase d count sel) = true ∧
    ∀ k d0, k < (charsOf d).length →
      (((charsOf d).getD k d0).isAlpha = false ∨
        effSel d count sel (alphaCnt ((charsOf d).take k)) = false) →
      (charsOf (make_chars_uppercase d count sel)).getD k d0 =
        (charsOf d).getD k d0 := by
  refine ⟨mcu_sameShape d count sel, ?_⟩
  intro k d0 hk hcase
  rw [mcu_getD d count sel k d0 hk]
  rcases hcase with hA | hS
  · rw [hA]
    simp
  · rw [hS]
    simp

/-- Witness for C4 on a nested mixed structure: shape is preserved and the
unselected second character stays lowercase. -/
theorem make_chars_uppercase_shape_frame_witness :
    sameShape
      (CaseData.ordered (.cons (.str ['a', 'b']) (.cons (.unordered (.cons (.num 3) .nil)) .nil)))
      (make_chars_uppercase
        (CaseData.ordered (.cons (.str ['a', 'b']) (.cons (.unordered (.cons (.num 3) .nil)) .nil)))
        1 (fun j => j == 0)) = true ∧
    (charsOf (make_chars_uppercase
        (CaseData.ordered (.cons (.str ['a', 'b']) (.cons (.unordered (.cons (.num 3) .nil)) .nil)))
        1 (fun j => j == 0))).getD 1 ' ' =
      (charsOf (CaseData.ordered
        (.cons (.str ['a', 'b']) (.cons (.unordered (.cons (.num 3) .nil)) .nil)))).getD 1 ' ' := by
  refine ⟨(make_chars_uppercase_shape_frame _ 1 (fun j => j == 0)).1, ?_⟩
  exact (make_chars_uppercase_shape_frame _ 1 (fun j => j == 0)).2 1 ' '
    (by decide) (Or.inr (by decide))

/-- Packaging a word list as an ordered sequence of strings and reading the
strings back is the identity. -/
theorem strsOf_wordsToCase (ws : List (List Char)) : strsOf (wordsToCase ws) = ws := by
  rw [wordsToCase, strsOf]
  induction ws with
  | nil => rfl
  | cons w ws ih =>
    simp only [List.map_cons, CaseList.ofList, strsOfList]
    rw [ih]

/-- The words drawn by a passphrase generation call. -/
def drawnWords (s : Passphrase) (r : RandSrc) : List (List Char) :=
  (List.range (s.amount_w.getD 0)).map
    (fun k => (s.wordlist.getD []).getD (r.choice k (s.wordlist.getD []).length) [])

/-- The numbers drawn by a case-biased passphrase generation call (over the
configured range, as the spec prescribes). -/
def drawnNums (s : Passphrase) (r : RandSrc) : List Token :=
  (List.range (s.amount_n.getD 0)).map
    (fun k => Token.num (r.between k s.randnum_min s.randnum_max))

/-- C2: every successful `generate(case_bias)` call passes the drawn words
through `make_chars_uppercase(words, case_bias)` when `case_bias > 0`, uses
the uppercase target `total_alphabetic - |case_bias|` when `case_bias < 0`,
and leaves the words untouched when `case_bias == 0`; the drawn numbers are
appended after the words in every case. -/
theorem generate_case_bias_contract (s : Passphrase) (r : RandSrc) (sel : Nat → Bool)
    (case_bias : Int)
    (h : (s.amount_n.isNone || s.amount_w.isNone || s.wordlistEmpty) = false) :
    (0 < case_bias →
      (s.generate_case_bias r sel case_bias).2 =
        .ok ((strsOf (make_chars_uppercase (wordsToCase (drawnWords s r))
          case_bias.toNat sel)).map Token.word ++ drawnNums s r)) ∧
    (case_bias < 0 →
      (s.generate_case_bias r sel case_bias).2 =
        .ok ((strsOf (make_chars_uppercase (wordsToCase (drawnWords s r))
          (totalAlphabetic (wordsToCase (drawnWords s r)) - case_bias.natAbs) sel)).map
            Token.word ++ drawnNums s r)) ∧
    (case_bias = 0 →
      (s.generate_case_bias r sel case_bias).2 =
        .ok ((drawnWords s r).map Token.word ++ drawnNums s r)) := by
  rw [Passphrase.generate_case_bias]
  simp only [h, Bool.false_eq_true, if_false]
  refine ⟨?_, ?_, ?_⟩
  · intro hb
    rw [if_pos hb]
    rfl
  · intro hb
    rw [if_neg (by omega), if_pos hb]
    rfl
  · intro hb
    rw [if_neg (by omega), if_neg (by omega)]
    rw [strsOf_wordsToCase]
    rfl

/-- Witness for C2: one word, one number, `case_bias = 0` leaves the word
untouched. -/
theorem generate_case_bias_contract_witness :
    (Passphrase.generate_case_bias
      { Passphrase.init with wordlist := some [['a']], amount_w := some 1, amount_n := some 1 }
      detSrc (fun _ => false) 0).2 =
      .ok ([Token.word ['a'], Token.num 100000]) := by
  have := (generate_case_bias_contract
    { Passphrase.init with wordlist := some [['a']], amount_w := some 1, amount_n := some 1 }
    detSrc (fun _ => false) 0 (by decide)).2.2 rfl
  rw [this]
  rfl

/-- The failing configuration for C1: reachable through the setters (both
bounds accept any non-negative integer), with the configured numeric range
`[1000000, 1000000]` disjoint from the settings range `[MIN_NUM, MAX_NUM]`. -/
def sNumBad : Passphrase :=
  { Passphrase.init with
      wordlist := some [['w']], amount_w := some 0, amount_n := some 1,
      randnum_min := 1000000, randnum_max := 1000000 }

/-- C1 exposes a code bug: `generate` draws its numbers from
`randbetween(MIN_NUM, MAX_NUM)` - the settings constants - instead of the
configured `randnum_min` / `randnum_max` documented in the class docstring
and used by `words_amount_needed` for the entropy accounting. On `sNumBad`
every lawful draw produces a number outside the configured range. -/
theorem generate_uses_settings_range_not_configured (r : RandSrc) (hr : r.Lawful) :
    (sNumBad.generate r).2 = .ok [Token.num (r.between 0 MIN_NUM MAX_NUM)] ∧
    ¬(sNumBad.randnum_min ≤ r.between 0 MIN_NUM MAX_NUM ∧
      r.between 0 MIN_NUM MAX_NUM ≤ sNumBad.randnum_max) := by
  constructor
  · rfl
  · intro hmem
    have hb := (hr.1 0 MIN_NUM MAX_NUM (by decide)).2
    have hmin : sNumBad.randnum_min = 1000000 := rfl
    have hM : MAX_NUM = 999999 := rfl
    rw [hmin] at hmem
    omega

/-- Witness for C1 at the deterministic oracle. -/
theorem generate_uses_settings_range_not_configured_witness :
    (sNumBad.generate detSrc).2 = .ok [Token.num (detSrc.between 0 MIN_NUM MAX_NUM)] ∧
    ¬(sNumBad.randnum_min ≤ detSrc.between 0 MIN_NUM MAX_NUM ∧
      detSrc.between 0 MIN_NUM MAX_NUM ≤ sNumBad.randnum_max) :=
  generate_uses_settings_range_not_configured detSrc detSrc_lawful

/-- C8: each generation operation is atomic with respect to `last_result`:
a validation error leaves the state (in particular `last_result`) exactly as
it was, and a success replaces `last_result` wholesale by the returned token
sequence (`generate_uuid4` has no validation error and always succeeds). -/
theorem generation_atomic (s : Passphrase) (r : RandSrc) (hexstr : List Char) (rb : Nat) :
    (∀ e, (s.generate r).2 = .error e → (s.generate r).1 = s) ∧
    (∀ t, (s.generate r).2 = .ok t →
      (s.generate r).1 = { s with last_result := some t }) ∧
    (∀ e, (s.generate_password r).2 = .error e → (s.generate_password r).1 = s) ∧
    (∀ t, (s.generate_password r).2 = .ok t →
      (s.generate_password r).1 = { s with last_result := some t }) ∧
    ((s.generate_uuid4 hexstr rb).1 =
      { s with last_result := some (s.generate_uuid4 hexstr rb).2 }) := by
  refine ⟨?_, ?_, ?_, ?_, ?_⟩
  · intro e he
    rw [Passphrase.generate]
    by_cases hc : (s.amount_n.isNone || s.amount_w.isNone || s.wordlistEmpty) = true
    · rw [if_pos hc]
    · rw [Passphrase.generate, if_neg hc] at he
      exact absurd he (by simp)
  · intro t ht
    rw [Passphrase.generate]
    by_cases hc : (s.amount_n.isNone || s.amount_w.isNone || s.wordlistEmpty) = true
    · rw [Passphrase.generate, if_pos hc] at ht
      exact absurd ht (by simp)
    · rw [Passphrase.generate, if_neg hc] at ht
      rw [if_neg hc]
      simp only at ht
      simp only
      rw [Except.ok.injEq] at ht
      rw [ht]
  · intro e he
    rw [Passphrase.generate_password]
    by_cases hc : (s.passwordlen.isNone || s.get_password_characters.isEmpty) = true
    · rw [if_pos hc]
    · rw [Passphrase.generate_password, if_neg hc] at he
      exact absurd he (by simp)
  · intro t ht
    rw [Passphrase.generate_password]
    by_cases hc : (s.passwordlen.isNone || s.get_password_characters.isEmpty) = true
    · rw [Passphrase.generate_password, if_pos hc] at ht
      exact absurd ht (by simp)
    · rw [Passphrase.generate_password, if_neg hc] at ht
      rw [if_neg hc]
      simp only at ht
      simp only
      rw [Except.ok.injEq] at ht
      rw [ht]
  · rfl

/-- Witness for C8: the default state has no wordlist, so `generate` errors
and leaves the state unchanged; a configured state succeeds and replaces
`last_result` wholesale. -/
theorem generation_atomic_witness :
    (Passphrase.init.generate detSrc).1 = Passphrase.init ∧
    ((Passphrase.init.generate_uuid4 [] 8).1 =
      { Passphrase.init with
          last_result := some (Passphrase.init.generate_uuid4 [] 8).2 }) := by
  constructor
  · exact (generation_atomic Passphrase.init detSrc [] 8).1 PyErr.valueError rfl
  · exact (generation_atomic Passphrase.init detSrc [] 8).2.2.2.2

/-- C9 fails as stated: the setters enforce only non-negativity, so setting
`randnum_min` to 1000000 while `randnum_max` keeps its default 999999 yields
a reachable configuration violating `randnum_min ≤ randnum_max`. -/
theorem randnum_range_invariant_counterexample :
    Passphrase.Reachable { Passphrase.init with randnum_min := 1000000 } ∧
    ¬({ Passphrase.init with randnum_min := 1000000 } : Passphrase).randnum_min ≤
      ({ Passphrase.init with randnum_min := 1000000 } : Passphrase).randnum_max := by
  constructor
  · exact @Passphrase.Reachable.rmin Passphrase.init
      { Passphrase.init with randnum_min := 1000000 } 1000000
      Passphrase.Reachable.init
      (by rw [Passphrase.set_randnum_min, if_neg (by decide)])
  · decide

/-- C9 (amended): the default configuration satisfies
`randnum_min ≤ randnum_max`, and every configuration reachable through the
public setters keeps both bounds non-negative; the relation
`randnum_min ≤ randnum_max` itself is not enforced by the setters. -/
theorem randnum_range_invariant_amended (s : Passphrase) (hs : Passphrase.Reachable s) :
    0 ≤ s.randnum_min ∧ 0 ≤ s.randnum_max ∧
    Passphrase.init.randnum_min ≤ Passphrase.init.randnum_max := by
  have hboth : 0 ≤ s.randnum_min ∧ 0 ≤ s.randnum_max := by
    clear* - hs
    induction hs with
    | init => exact ⟨by decide, by decide⟩
    | rmin hs hok ih =>
      rw [Passphrase.set_randnum_min] at hok
      split at hok
      · exact absurd hok (by simp)
      · rw [Except.ok.injEq] at hok
        rw [← hok]
        simp only
        exact ⟨by omega, ih.2⟩
    | rmax hs hok ih =>
      rw [Passphrase.set_randnum_max] at hok
      split at hok
      · exact absurd hok (by simp)
      · rw [Except.ok.injEq] at hok
        rw [← hok]
        simp only
        exact ⟨ih.1, by omega⟩
    | aw hs hok ih =>
      rw [Passphrase.set_amount_w] at hok
      split at hok
      · exact absurd hok (by simp)
      · rw [Except.ok.injEq] at hok
        rw [← hok]
        exact ih
    | an hs hok ih =>
      rw [Passphrase.set_amount_n] at hok
      split at hok
      · exact absurd hok (by simp)
      · rw [Except.ok.injEq] at hok
        rw [← hok]
        exact ih
    | plen hs hok ih =>
      rw [Passphrase.set_passwordlen] at hok
      split at hok
      · exact absurd hok (by simp)
      · rw [Except.ok.injEq] at hok
        rw [← hok]
        exact ih
    | wl hs hok ih =>
      rw [Passphrase.set_wordlist] at hok
      rw [Except.ok.injEq] at hok
      rw [← hok]
      exact ih
  exact ⟨hboth.1, hboth.2, by decide⟩

/-- Witness for C9 at the default configuration. -/
theorem randnum_range_invariant_amended_witness :
    0 ≤ Passphrase.init.randnum_min ∧ 0 ≤ Passphrase.init.randnum_max ∧
    Passphrase.init.randnum_min ≤ Passphrase.init.randnum_max := by
  have h := randnum_range_invariant_amended Passphrase.init Passphrase.Reachable.init
  exact ⟨h.1, h.2.1, h.2.2⟩

/-- Hex digits are not dashes. -/
theorem hex_ne_dash (c : Char) (h : isHexDigit c = true) : c ≠ '-' := by
  intro heq
  rw [heq] at h
  exact absurd h (by decide)

/-- Splitting a dash-free list yields the single segment. -/
theorem splitDash_nodash (cs : List Char) (h : ∀ c ∈ cs, c ≠ '-') :
    splitDash cs = [cs] := by
  induction cs with
  | nil => rfl
  | cons c cs ih =>
    rw [splitDash, if_neg (h c (by simp))]
    rw [ih (fun x hx => h x (by simp [hx]))]

/-- Splitting after a dash-free prefix peels off the first segment. -/
theorem splitDash_append (xs rest : List Char) (h : ∀ c ∈ xs, c ≠ '-') :
    splitDash (xs ++ '-' :: rest) = xs :: splitDash rest := by
  induction xs with
  | nil =>
    simp only [List.nil_append]
    rw [splitDash, if_pos rfl]
  | cons c cs ih =>
    rw [List.cons_append, splitDash, if_neg (h c (by simp))]
    rw [ih (fun x hx => h x (by simp [hx]))]

/-- C5: `generate_uuid4` returns exactly five string segments of lengths
8, 4, 4, 4 and 12 hexadecimal characters, the head of segment 3 is the
literal `4`, the head of segment 4 is one of `8,9,a,b`, and the segments
joined with dashes parse as a valid version-4 RFC-4122 UUID string. -/
theorem generate_uuid4_valid (s : Passphrase) (hexstr : List Char) (rb : Nat)
    (hlen : hexstr.length = 30) (hhex : ∀ c ∈ hexstr, isHexDigit c = true)
    (hrb : 8 ≤ rb ∧ rb ≤ 11) :
    (s.generate_uuid4 hexstr rb).2 =
      [.word (hexstr.take 8), .word ((hexstr.drop 8).take 4),
       .word ('4' :: (hexstr.drop 12).take 3),
       .word (hexDigitChar rb :: (hexstr.drop 15).take 3), .word (hexstr.drop 18)] ∧
    (hexstr.take 8).length = 8 ∧ ((hexstr.drop 8).take 4).length = 4 ∧
    ('4' :: (hexstr.drop 12).take 3).length = 4 ∧
    (hexDigitChar rb :: (hexstr.drop 15).take 3).length = 4 ∧
    (hexstr.drop 18).length = 12 ∧
    ('4' :: (hexstr.drop 12).take 3).getD 0 ' ' = '4' ∧
    (hexDigitChar rb = '8' ∨ hexDigitChar rb = '9' ∨
      hexDigitChar rb = 'a' ∨ hexDigitChar rb = 'b') ∧
    isValidUUID4 (joinDash
      [hexstr.take 8, (hexstr.drop 8).take 4, '4' :: (hexstr.drop 12).take 3,
       hexDigitChar rb :: (hexstr.drop 15).take 3, hexstr.drop 18]) = true := by
  have hL1 : (hexstr.take 8).length = 8 := by
    rw [List.length_take, hlen]
    decide
  have hL2 : ((hexstr.drop 8).take 4).length = 4 := by
    rw [List.length_take, List.length_drop, hlen]
    decide
  have hL3 : ('4' :: (hexstr.drop 12).take 3).length = 4 := by
    rw [List.length_cons, List.length_take, List.length_drop, hlen]
    decide
  have hL4 : (hexDigitChar rb :: (hexstr.drop 15).take 3).length = 4 := by
    rw [List.length_cons, List.length_take, List.length_drop, hlen]
    decide
  have hL5 : (hexstr.drop 18).length = 12 := by
    rw [List.length_drop, hlen]
  have hvar : hexDigitChar rb = '8' ∨ hexDigitChar rb = '9' ∨
      hexDigitChar rb = 'a' ∨ hexDigitChar rb = 'b' := by
    obtain ⟨h8, h11⟩ := hrb
    interval_cases rb <;> decide
  have hhex1 : ∀ c ∈ hexstr.take 8, isHexDigit c = true :=
    fun c hc => hhex c (List.take_subset 8 hexstr hc)
  have hhex2 : ∀ c ∈ (hexstr.drop 8).take 4, isHexDigit c = true :=
    fun c hc => hhex c (List.drop_subset 8 hexstr (List.take_subset 4 _ hc))
  have hhexv : isHexDigit (hexDigitChar rb) = true := by
    rcases hvar with h | h | h | h <;> rw [h] <;> decide
  have hhex3 : ∀ c ∈ '4' :: (hexstr.drop 12).take 3, isHexDigit c = true := by
    intro c hc
    rcases List.mem_cons.1 hc with rfl | hc
    · decide
    · exact hhex c (List.drop_subset 12 hexstr (List.take_subset 3 _ hc))
  have hhex4 : ∀ c ∈ hexDigitChar rb :: (hexstr.drop 15).take 3, isHexDigit c = true := by
    intro c hc
    rcases List.mem_cons.1 hc with rfl | hc
    · exact hhexv
    · exact hhex c (List.drop_subset 15 hexstr (List.take_subset 3 _ hc))
  have hhex5 : ∀ c ∈ hexstr.drop 18, isHexDigit c = true :=
    fun c hc => hhex c (List.drop_subset 18 hexstr hc)
  have hjoin : joinDash
      [hexstr.take 8, (hexstr.drop 8).take 4, '4' :: (hexstr.drop 12).take 3,
       hexDigitChar rb :: (hexstr.drop 15).take 3, hexstr.drop 18] =
      hexstr.take 8 ++ '-' :: ((hexstr.drop 8).take 4 ++ '-' ::
        (('4' :: (hexstr.drop 12).take 3) ++ '-' ::
          ((hexDigitChar rb :: (hexstr.drop 15).take 3) ++ '-' :: hexstr.drop 18))) := rfl
  have hsplit : splitDash (joinDash
      [hexstr.take 8, (hexstr.drop 8).take 4, '4' :: (hexstr.drop 12).take 3,
       hexDigitChar rb :: (hexstr.drop 15).take 3, hexstr.drop 18]) =
      [hexstr.take 8, (hexstr.drop 8).take 4, '4' :: (hexstr.drop 12).take 3,
       hexDigitChar rb :: (hexstr.drop 15).take 3, hexstr.drop 18] := by
    rw [hjoin]
    rw [splitDash_append _ _ (fun c hc => hex_ne_dash c (hhex1 c hc))]
    rw [splitDash_append _ _ (fun c hc => hex_ne_dash c (hhex2 c hc))]
    rw [splitDash_append _ _ (fun c hc => hex_ne_dash c (hhex3 c hc))]
    rw [splitDash_append _ _ (fun c hc => hex_ne_dash c (hhex4 c hc))]
    rw [splitDash_nodash _ (fun c hc => hex_ne_dash c (hhex5 c hc))]
  refine ⟨rfl, hL1, hL2, hL3, hL4, hL5, rfl, hvar, ?_⟩
  rw [isValidUUID4, hsplit, validUUID4Segments]
  simp only [hL1, hL2, hL3, hL4, hL5, List.getD_cons_zero]
  have hhex3x : ∀ c ∈ (hexstr.drop 12).take 3, isHexDigit c = true :=
    fun c hc => hhex c (List.drop_subset 12 hexstr (List.take_subset 3 _ hc))
  have hhex4x : ∀ c ∈ (hexstr.drop 15).take 3, isHexDigit c = true :=
    fun c hc => hhex c (List.drop_subset 15 hexstr (List.take_subset 3 _ hc))
  have hx4 : isHexDigit '4' = true := by decide
  have hx8 : isHexDigit '8' = true := by decide
  have hx9 : isHexDigit '9' = true := by decide
  have hxa : isHexDigit 'a' = true := by decide
  have hxb : isHexDigit 'b' = true := by decide
  rcases hvar with h | h | h | h <;>
    simp [h, hx4, hx8, hx9, hxa, hxb] <;>
    exact ⟨hhex1, hhex2, hhex3x, hhex4x, hhex5⟩

/-- Witness for C5 on thirty zero hex characters and variant draw 8. -/
theorem generate_uuid4_valid_witness :
    isValidUUID4 (joinDash
      [(List.replicate 30 '0').take 8, ((List.replicate 30 '0').drop 8).take 4,
       '4' :: ((List.replicate 30 '0').drop 12).take 3,
       hexDigitChar 8 :: ((List.replicate 30 '0').drop 15).take 3,
       (List.replicate 30 '0').drop 18]) = true :=
  (generate_uuid4_valid Passphrase.init (List.replicate 30 '0') 8 (by decide) (by decide)
    (by decide)).2.2.2.2.2.2.2.2

/-- A rational power bound transfers to the real power with fractional
exponent (base 2, lower bound form). -/
theorem rpow_ratio_le (a : ℝ) (p q : ℕ) (hq : 0 < q) (ha : 0 < a)
    (h : (2:ℝ)^(p:ℕ) ≤ a^(q:ℕ)) : (2:ℝ)^((p:ℝ)/(q:ℝ)) ≤ a := by
  have hkey : ((2:ℝ)^((p:ℝ)/(q:ℝ)))^(q:ℕ) = (2:ℝ)^(p:ℕ) := by
    rw [← Real.rpow_natCast ((2:ℝ)^((p:ℝ)/(q:ℝ))) q, ← Real.rpow_mul (by norm_num)]
    rw [div_mul_cancel₀]
    · rw [Real.rpow_natCast]
    · exact_mod_cast hq.ne.symm
  have h2 : ((2:ℝ)^((p:ℝ)/(q:ℝ)))^(q:ℕ) ≤ a^(q:ℕ) := by
    rw [hkey]
    exact h
  exact le_of_pow_le_pow_left (Nat.pos_iff_ne_zero.mp hq) (le_of_lt ha) h2

/-- A rational power bound transfers to the real power with fractional
exponent (base 2, upper bound form). -/
theorem lt_rpow_ratio (a : ℝ) (p q : ℕ) (hq : 0 < q)
    (h : a^(q:ℕ) < (2:ℝ)^(p:ℕ)) : a < (2:ℝ)^((p:ℝ)/(q:ℝ)) := by
  have hkey : ((2:ℝ)^((p:ℝ)/(q:ℝ)))^(q:ℕ) = (2:ℝ)^(p:ℕ) := by
    rw [← Real.rpow_natCast ((2:ℝ)^((p:ℝ)/(q:ℝ))) q, ← Real.rpow_mul (by norm_num)]
    rw [div_mul_cancel₀]
    · rw [Real.rpow_natCast]
    · exact_mod_cast hq.ne.symm
  have h2 : a^(q:ℕ) < ((2:ℝ)^((p:ℝ)/(q:ℝ)))^(q:ℕ) := by
    rw [hkey]
    exact h
  exact lt_of_pow_lt_pow_left q (by positivity) h2

/-- Rational lower bound on a base-2 logarithm from an integer power
inequality. -/
theorem logb2_ratio_le (a : ℝ) (p q : ℕ) (hq : 0 < q) (ha : 1 < a)
    (h : (2:ℝ)^(p:ℕ) ≤ a^(q:ℕ)) : (p:ℝ)/(q:ℝ) ≤ Real.logb 2 a := by
  rw [Real.le_logb_iff_rpow_le (by norm_num) (by linarith)]
  exact rpow_ratio_le a p q hq (by linarith) h

/-- Rational upper bound on a base-2 logarithm from an integer power
inequality. -/
theorem logb2_lt_ratio (a : ℝ) (p q : ℕ) (hq : 0 < q) (ha : 1 < a)
    (h : a^(q:ℕ) < (2:ℝ)^(p:ℕ)) : Real.logb 2 a < (p:ℝ)/(q:ℝ) := by
  rw [Real.logb_lt_iff_lt_rpow (by norm_num) (by linarith)]
  exact lt_rpow_ratio a p q hq h

/-- The six-word external test wordlist (`WORDS` of the test suite). -/
def WORDS : List (List Char) :=
  [ "vivacious".toList, "frigidly".toList, "condiment".toList,
    "passive".toList, "reverse".toList, "brunt".toList ]

/-- The configuration of `test_words_amount_needed`: internal wordlist,
entropy target 77 bits, no numbers. -/
noncomputable def sInternal77 : Passphrase :=
  { Passphrase.init.load_internal_wordlist with
      entropy_bits_req := some 77, amount_n := some 0 }

/-- The same configuration after importing the six-word external list
(`import_words_from_file` goes through the `wordlist` setter, which marks
the list external). -/
noncomputable def sExternal77 : Passphrase :=
  { sInternal77 with wordlist := some WORDS, external_wordlist := true }

/-- C6: `words_amount_needed` computes
`ceil(max(0, target - bits_per_number * amount_numbers) / bits_per_word)`,
in particular 0 whenever the numbers alone cover the target; with the
internal wordlist, target 77 and no numbers it returns 6, and with the
six-word external list it returns 30. -/
theorem words_amount_needed_correct :
    (∀ (t ew en : ℝ) (n : Nat),
      calc_words_amount_needed t ew en n = ⌈max 0 (t - en * n) / ew⌉) ∧
    (∀ (t ew en : ℝ) (n : Nat), t ≤ en * n → calc_words_amount_needed t ew en n = 0) ∧
    sInternal77.words_amount_needed = .ok 6 ∧
    sExternal77.words_amount_needed = .ok 30 := by
  refine ⟨fun t ew en n => rfl, ?_, ?_, ?_⟩
  · intro t ew en n ht
    rw [calc_words_amount_needed]
    have hmax : max 0 (t - en * n) = 0 := by
      rw [max_eq_left]
      linarith
    rw [hmax, zero_div]
    exact Int.ceil_zero
  · have hred : sInternal77.words_amount_needed =
        .ok (calc_words_amount_needed 77 internalWordlistEntropyBits
          (Passphrase.entropy_bits
            [.num (sInternal77.randnum_min : ℚ), .num (sInternal77.randnum_max : ℚ)]) 0) := rfl
    rw [hred, Except.ok.injEq, calc_words_amount_needed, internalWordlistEntropyBits]
    have hsimp : max 0 ((77:ℝ) - Passphrase.entropy_bits
        [.num (sInternal77.randnum_min : ℚ), .num (sInternal77.randnum_max : ℚ)] * ((0:ℕ):ℝ)) =
        77 := by
      norm_num
    rw [hsimp]
    have hlb : (77:ℝ)/6 ≤ Real.logb 2 7776 := by
      have := logb2_ratio_le 7776 77 6 (by norm_num) (by norm_num) (by norm_num)
      simpa using this
    have hub : Real.logb 2 7776 < (77:ℝ)/5 := by
      have := logb2_lt_ratio 7776 77 5 (by norm_num) (by norm_num) (by norm_num)
      simpa using this
    have hM0 : 0 < Real.logb 2 7776 := Real.logb_pos (by norm_num) (by norm_num)
    rw [Int.ceil_eq_iff]
    constructor
    · push_cast
      rw [lt_div_iff hM0]
      nlinarith
    · push_cast
      rw [div_le_iff hM0]
      nlinarith
  · have hred : sExternal77.words_amount_needed =
        .ok (calc_words_amount_needed 77
          (Passphrase.entropy_bits (WORDS.map PyVal.word))
          (Passphrase.entropy_bits
            [.num (sExternal77.randnum_min : ℚ), .num (sExternal77.randnum_max : ℚ)]) 0) := rfl
    rw [hred, Except.ok.injEq, calc_words_amount_needed]
    have hw : Passphrase.entropy_bits (WORDS.map PyVal.word) =
        Real.logb 2 ((WORDS.map PyVal.word).length) := rfl
    have hlen : (((WORDS.map PyVal.word).length : ℕ) : ℝ) = 6 := by
      norm_num [WORDS]
    rw [hw, hlen]
    have hsimp : max 0 ((77:ℝ) - Passphrase.entropy_bits
        [.num (sExternal77.randnum_min : ℚ), .num (sExternal77.randnum_max : ℚ)] * ((0:ℕ):ℝ)) =
        77 := by
      norm_num
    rw [hsimp]
    have hlb : (77:ℝ)/30 ≤ Real.logb 2 6 := by
      have := logb2_ratio_le 6 77 30 (by norm_num) (by norm_num) (by norm_num)
      simpa using this
    have hub : Real.logb 2 6 < (77:ℝ)/29 := by
      have := logb2_lt_ratio 6 77 29 (by norm_num) (by norm_num) (by norm_num)
      simpa using this
    have hM0 : 0 < Real.logb 2 6 := Real.logb_pos (by norm_num) (by norm_num)
    rw [Int.ceil_eq_iff]
    constructor
    · push_cast
      rw [lt_div_iff hM0]
      nlinarith
    · push_cast
      rw [div_le_iff hM0]
      nlinarith

/-- Witness for C6: the zero clause at a target already covered by the
numbers, together with the concrete internal-wordlist instance. -/
theorem words_amount_needed_correct_witness :
    calc_words_amount_needed 10 1 5 2 = 0 ∧ sInternal77.words_amount_needed = .ok 6 :=
  ⟨words_amount_needed_correct.2.1 10 1 5 2 (by norm_num),
    words_amount_needed_correct.2.2.1⟩

/-- The configuration of `test_password_length_needed`: defaults (all four
character classes enabled) with entropy target 128 bits. -/
noncomputable def sPass128 : Passphrase :=
  { Passphrase.init with entropy_bits_req := some 128 }

/-- C7: `password_length_needed` computes
`ceil(entropy_target / log2(charset_size))` with a minimum result of 1 (the
ceiling is already at least 1 for a positive target and a charset of more
than one character); with all four character classes enabled the charset has
94 characters and an entropy target of 128 bits yields 20. -/
theorem password_length_needed_correct :
    (∀ (t : ℝ) (chars : List Char),
      calc_password_length_needed t chars = max 1 ⌈t / Real.logb 2 chars.length⌉) ∧
    (∀ (t : ℝ) (chars : List Char), 0 < t → 1 < chars.length →
      calc_password_length_needed t chars = ⌈t / Real.logb 2 chars.length⌉) ∧
    Passphrase.init.get_password_characters.length = 94 ∧
    sPass128.password_length_needed = .ok 20 := by
  have hch : Passphrase.init.get_password_characters.length = 94 := by decide
  refine ⟨fun t chars => rfl, ?_, hch, ?_⟩
  · intro t chars ht hlen
    rw [calc_password_length_needed]
    have hlogb : 0 < Real.logb 2 chars.length := by
      apply Real.logb_pos (by norm_num)
      exact_mod_cast hlen
    have hpos : 0 < ⌈t / Real.logb 2 chars.length⌉ :=
      Int.ceil_pos.2 (div_pos ht hlogb)
    omega
  · have hred : sPass128.password_length_needed =
        .ok (calc_password_length_needed 128 sPass128.get_password_characters) := rfl
    rw [hred, Except.ok.injEq, calc_password_length_needed]
    have hch2 : sPass128.get_password_characters.length = 94 := by decide
    rw [hch2]
    have hcast : ((94:ℕ):ℝ) = 94 := by norm_num
    rw [hcast]
    have hlb : (32:ℝ)/5 ≤ Real.logb 2 94 := by
      have := logb2_ratio_le 94 32 5 (by norm_num) (by norm_num) (by norm_num)
      simpa using this
    have hub : Real.logb 2 94 < (128:ℝ)/19 := by
      have := logb2_lt_ratio 94 128 19 (by norm_num) (by norm_num) (by norm_num)
      simpa using this
    have hM0 : 0 < Real.logb 2 94 := Real.logb_pos (by norm_num) (by norm_num)
    have hceil : ⌈(128:ℝ) / Real.logb 2 94⌉ = 20 := by
      rw [Int.ceil_eq_iff]
      constructor
      · push_cast
        rw [lt_div_iff hM0]
        nlinarith
      · push_cast
        rw [div_le_iff hM0]
        nlinarith
    rw [hceil]
    decide

/-- Witness for C7: the minimum-1 clause at a concrete positive target and
two-character charset, together with the concrete 94-character instance. -/
theorem password_length_needed_correct_witness :
    calc_password_length_needed 1 ['a', 'b'] = ⌈(1:ℝ) / Real.logb 2 (['a', 'b'] : List Char).length⌉ ∧
    sPass128.password_length_needed = .ok 20 :=
  ⟨password_length_needed_correct.2.1 1 ['a', 'b'] (by norm_num) (by decide),
    password_length_needed_correct.2.2.2⟩

/-- C10: the static `entropy_bits` treats a two-element list of numbers as a
numeric range, returning `log2(max - min + 1)` instead of the collection
entropy `log2(2) = 1`, and returns `log2` of the element count on every
other non-empty list; on the range `(0, 7)` it returns 3, not 1. -/
theorem entropy_bits_pair_range :
    (∀ a b : ℚ, Passphrase.entropy_bits [.num a, .num b] =
      Real.logb 2 ((b:ℝ) - (a:ℝ) + 1)) ∧
    (∀ lst : List PyVal, lst ≠ [] → (∀ a b : ℚ, lst ≠ [.num a, .num b]) →
      Passphrase.entropy_bits lst = Real.logb 2 lst.length) ∧
    Passphrase.entropy_bits [.num 0, .num 7] = 3 ∧
    Real.logb 2 2 = 1 ∧ (3:ℝ) ≠ 1 := by
  refine ⟨fun a b => rfl, ?_, ?_, ?_, by norm_num⟩
  · intro lst h1 h2
    match lst with
    | [] => exact absurd rfl h1
    | [x] => cases x <;> rfl
    | x :: y :: z :: rest => cases x <;> cases y <;> rfl
    | [x, y] =>
      cases x with
      | num a =>
        cases y with
        | num b => exact absurd rfl (h2 a b)
        | word w => rfl
      | word w => cases y <;> rfl
  · have h1 : Passphrase.entropy_bits [.num 0, .num 7] =
        Real.logb 2 (((7:ℚ):ℝ) - ((0:ℚ):ℝ) + 1) := rfl
    rw [h1]
    have h2 : (((7:ℚ):ℝ) - ((0:ℚ):ℝ) + 1) = 2^(3:ℕ) := by norm_num
    rw [h2, Real.logb_pow]
    simp [Real.logb_self_eq_one]
  · have h2 : (2:ℝ) = 2^(1:ℕ) := by norm_num
    rw [h2, Real.logb_pow]
    simp [Real.logb_self_eq_one]

/-- Witness for C10: the collection clause on a one-word list. -/
theorem entropy_bits_pair_range_witness :
    Passphrase.entropy_bits [PyVal.word ['a']] =
      Real.logb 2 (([PyVal.word ['a']] : List PyVal).length : ℝ) :=
  entropy_bits_pair_range.2.1 [PyVal.word ['a']] (by simp)
    (fun a b => by simp)
